import Mathlib

/-!
Shallow embedding of the qwick static key-value store (src/qwick.go).

Bytes are modelled as `Nat` values (each byte < 256); files, keys, values
and mmap contents as `List Nat`. Go's runtime panic on an out-of-range
slice expression is modelled by `Option`: a `none` result is a panic.
The s2 and zstd compression libraries (github.com/klauspost/compress) are
external dependencies and are modelled by an abstract `Codecs` record.
Go's `uint64` offset arithmetic is modelled with `Nat`; wrap-around would
need a file of at least 2^63 bytes, which a Go slice cannot hold.
-/

deriving instance DecidableEq for Except

namespace Qwick

/-- FileMagic from qwick.go: the string constant "QWICK2026" — nine bytes,
although the header's magic field holds only eight. -/
def fileMagic : List Nat := [81, 87, 73, 67, 75, 50, 48, 50, 54]

/-- headerSize from qwick.go (64 bytes). -/
def headerSize : Nat := 64

/-- indexEntrySize from qwick.go: 8 + 4 + 8 + 4 bytes per index record. -/
def indexEntrySize : Nat := 24

/-- Little-endian read of `n` bytes of `m` starting at `off`, as
`binary.LittleEndian.Uint32`/`Uint64` do on `m[off : off+n]`. -/
def leRead (m : List Nat) (off n : Nat) : Nat :=
  (List.range n).foldr (fun i acc => acc * 256 + m.getD (off + i) 0) 0

/-- Little-endian encoding of `x` into `n` bytes, as
`binary.LittleEndian.PutUint32`/`PutUint64` produce. -/
def leWrite (n x : Nat) : List Nat :=
  (List.range n).map (fun i => x / 256 ^ i % 256)

/-- Go slice expression `m[off : off+n]`. `none` models the runtime
bounds-check panic raised when the range exceeds the backing slice. -/
def goSlice (m : List Nat) (off n : Nat) : Option (List Nat) :=
  if off + n ≤ m.length then some ((m.drop off).take n) else none

/-- fileHeader from qwick.go, with the fields Open parses (the magic field
is kept as the eight raw bytes Open copies out of the file). -/
structure FileHeader where
  magic : List Nat
  version : Nat
  numEntries : Nat
  offIndex : Nat
  offBlobs : Nat
  valueFmt : Nat
  compression : Nat
deriving DecidableEq

/-- MMAPDB from qwick.go: the reader state built by Open. -/
structure MMAPDB where
  mdata : List Nat
  hdr : FileHeader
  indexBase : Nat
  indexSize : Nat
  num : Nat
  compression : Nat
deriving DecidableEq

/-- readIndex from qwick.go: the four little-endian fields of index entry
`i`, read at `indexBase + i*indexEntrySize`. The Go code slices four
nested ranges whose largest bound is `off + 24`; a single bounds test on
that bound is equivalent, and `none` models the panic. -/
def readIndex (db : MMAPDB) (i : Nat) : Option (Nat × Nat × Nat × Nat) :=
  let off := db.indexBase + i * indexEntrySize
  if off + indexEntrySize ≤ db.mdata.length then
    some (leRead db.mdata off 8, leRead db.mdata (off + 8) 4,
          leRead db.mdata (off + 12) 8, leRead db.mdata (off + 20) 4)
  else none

/-- getKeySlice from qwick.go: `db.mdata[koff : koff+klen]`. -/
def getKeySlice (db : MMAPDB) (i : Nat) : Option (List Nat) :=
  match readIndex db i with
  | none => none
  | some (koff, klen, _, _) => goSlice db.mdata koff klen

/-- getValSlice from qwick.go: `db.mdata[voff : voff+vlen]`. -/
def getValSlice (db : MMAPDB) (i : Nat) : Option (List Nat) :=
  match readIndex db i with
  | none => none
  | some (_, _, voff, vlen) => goSlice db.mdata voff vlen

/-- bytes.HasPrefix: `hasPfx p k` is true when `p` is a front part of
`k`. -/
def hasPfx : List Nat → List Nat → Bool
  | [], _ => true
  | _ :: _, [] => false
  | a :: as, b :: bs => if a = b then hasPfx as bs else false

/-- bytes.Compare: lexicographic byte-wise comparison in which a proper
front part of a sequence sorts before the longer sequence. -/
def bytesCompare : List Nat → List Nat → Ordering
  | [], [] => .eq
  | [], _ :: _ => .lt
  | _ :: _, [] => .gt
  | a :: as, b :: bs =>
    if a < b then .lt else if b < a then .gt else bytesCompare as bs

/-- Loop of findIndex from qwick.go (binary search over `[lo, hi)`).
`fuel` bounds the iteration count so the recursion is structural;
`findIndex` passes `db.num`, which always suffices because `hi - lo`
shrinks by at least one per step. `none` models a panic inside
getKeySlice. -/
def findIndexLoop (db : MMAPDB) (key : List Nat) : Nat → Nat → Nat → Option (Nat × Bool)
  | 0, lo, _ => some (lo, false)
  | fuel + 1, lo, hi =>
    if lo < hi then
      let mid := (lo + hi) / 2
      match getKeySlice db mid with
      | none => none
      | some k =>
        match bytesCompare k key with
        | .eq => some (mid, true)
        | .lt => findIndexLoop db key fuel (mid + 1) hi
        | .gt => findIndexLoop db key fuel lo mid
    else some (lo, false)

/-- findIndex from qwick.go: binary search for `key` over the whole index;
returns the hit index with `true`, or the insertion point with `false`. -/
def findIndex (db : MMAPDB) (key : List Nat) : Option (Nat × Bool) :=
  findIndexLoop db key db.num 0 db.num

/-- GetRaw from qwick.go. Outer `none` is a panic; `some none` is Go's
`nil, false` (key absent); `some (some v)` is `v, true`. -/
def getRaw (db : MMAPDB) (key : List Nat) : Option (Option (List Nat)) :=
  match findIndex db key with
  | none => none
  | some (_, false) => some none
  | some (idx, true) =>
    match readIndex db idx with
    | none => none
    | some (_, _, voff, vlen) =>
      match goSlice db.mdata voff vlen with
      | none => none
      | some v => some (some v)

/-- Abstract model of the external compression libraries. `s2Dec` and
`zstdDec` return `none` when the library reports a decode error;
`zstdEnc` takes the encoder speed level (1 = SpeedFastest, 2 =
SpeedDefault, 3 = SpeedBetterCompression). -/
structure Codecs where
  s2Enc : List Nat → List Nat
  s2Dec : List Nat → Option (List Nat)
  zstdEnc : Nat → List Nat → List Nat
  zstdDec : List Nat → Option (List Nat)

/-- Non-nil error value Find can return (a codec decode failure). -/
inductive FindErr
  | decodeFailed
deriving DecidableEq

/-- Find from qwick.go. The `dst` buffer is only an append target
(`dst[:0]`); its contents never influence the decoded bytes, so the model
carries it for signature fidelity without using it. Outer `none` is a
panic inside GetRaw; otherwise the triple is Go's `(value, found, err)`.
On a codec error Go returns the codec's (empty) output, modelled `[]`. -/
def find (C : Codecs) (db : MMAPDB) (key dst : List Nat) :
    Option (List Nat × Bool × Option FindErr) :=
  let _ := dst
  match getRaw db key with
  | none => none
  | some none => some ([], false, none)
  | some (some val) =>
    if db.compression = 1 then
      match C.zstdDec val with
      | some out => some (out, true, none)
      | none => some ([], true, some .decodeFailed)
    else if db.compression = 2 then
      match C.s2Dec val with
      | some out => some (out, true, none)
      | none => some ([], true, some .decodeFailed)
    else if db.compression = 0 then
      match C.s2Dec val with
      | some out => some (out, true, none)
      | none =>
        match C.zstdDec val with
        | some out => some (out, true, none)
        | none => some (val, true, none)
    else some (val, true, none)

/-- Result of one Prefix walk: the entries visited (the key and value
pairs passed to the callback), the index slots the loop read, and whether
a slice-bounds panic occurred. -/
structure PfxRun where
  visits : List (List Nat × List Nat)
  reads : List Nat
  panicked : Bool
deriving DecidableEq

/-- Loop of Prefix from qwick.go, walking indices upward from `i` while
the stored key has `p` as a prefix (bytes.HasPrefix) and the callback
keeps returning `true`. Each iteration reads slot `i` (key, and value when
the prefix test passes) before deciding; `reads` records the slots
touched. `fuel` bounds iterations; `pfxScan` passes `db.num - i`, which
always suffices since `i` grows by one per step. -/
def pfxLoop (db : MMAPDB) (p : List Nat) (cb : List Nat → List Nat → Bool) :
    Nat → Nat → PfxRun
  | 0, _ => ⟨[], [], false⟩
  | fuel + 1, i =>
    if i < db.num then
      match getKeySlice db i with
      | none => ⟨[], [i], true⟩
      | some k =>
        if hasPfx p k then
          match getValSlice db i with
          | none => ⟨[], [i], true⟩
          | some v =>
            if cb k v then
              let r := pfxLoop db p cb fuel (i + 1)
              ⟨(k, v) :: r.visits, i :: r.reads, r.panicked⟩
            else ⟨[(k, v)], [i], false⟩
        else ⟨[], [i], false⟩
    else ⟨[], [], false⟩

/-- Prefix from qwick.go: binary-search to the lower bound of `p` (the
found flag is ignored), then walk forward. A panic inside findIndex is
recorded as `panicked` with no visits. -/
def pfxScan (db : MMAPDB) (p : List Nat) (cb : List Nat → List Nat → Bool) : PfxRun :=
  match findIndex db p with
  | none => ⟨[], [], true⟩
  | some (idx, _) => pfxLoop db p cb (db.num - idx) idx

/-- Index at which the Prefix walk starts: the insertion point findIndex
returns (0 if findIndex panics, in which case no walk happens). -/
def pfxStart (db : MMAPDB) (p : List Nat) : Nat :=
  match findIndex db p with
  | none => 0
  | some (idx, _) => idx

/-- Errors Open reports, together with the header-validation error names
used by the specification and by the repository's own tests (part_001:
TestErrorsMore, TestCorruptedDB). The constructors after `badMagic` are
never produced by the code under src/ and exist so that their absence is
statable. -/
inductive OpenErr
  | tooShort
  | badMagic
  | unsupportedVersion
  | unsupportedCompression
  | invalidIndexSize
deriving DecidableEq

/-- Header parse and MMAPDB construction performed by Open after the magic
check (qwick.go lines 90-104): little-endian fields at byte offsets 8, 16,
24, 32, 40 and 44. -/
def parseDB (m : List Nat) : MMAPDB :=
  let hdr : FileHeader :=
    { magic := m.take 8
      version := leRead m 8 4
      numEntries := leRead m 16 8
      offIndex := leRead m 24 8
      offBlobs := leRead m 32 8
      valueFmt := leRead m 40 4
      compression := leRead m 44 4 }
  { mdata := m, hdr := hdr, indexBase := hdr.offIndex,
    indexSize := indexEntrySize, num := hdr.numEntries,
    compression := hdr.compression }

/-- Open from qwick.go, modelled on the mapped bytes (operating-system
errors from os.Open and mmap are outside the model). The magic test
compares the eight bytes `m[0:8]` copied into the header with the full
nine-byte `fileMagic` constant, exactly as the Go code compares
`string(hdr.Magic[:])` (8 bytes) against `FileMagic` (9 bytes). No
further validation is performed before the reader is returned. -/
def openDB (m : List Nat) : Except OpenErr MMAPDB :=
  if m.length < headerSize then .error .tooShort
  else if m.take 8 = fileMagic then .ok (parseDB m)
  else .error .badMagic

/-- BuildOptions from qwick.go. `sizeCutover` is a Go `int`; a negative
value behaves exactly like 0 there (the auto-selection guard is `> 0`),
so modelling it as `Nat` loses nothing. -/
structure BuildOptions where
  compression : Nat
  zstdLevel : Nat
  sizeCutover : Nat
deriving DecidableEq

/-- Codec applied to one value during build. The `zstd` constructor
carries the effective encoder speed level (1 = SpeedFastest, 2 =
SpeedDefault, 3 = SpeedBetterCompression). -/
inductive CompChoice
  | raw
  | s2
  | zstd (speed : Nat)
deriving DecidableEq

/-- Mapping from the ZstdLevel option to the encoder speed, from the
`zenc` construction in BuildWithOptions: levels other than 2 and 3 give
SpeedFastest. -/
def zstdSpeedOf (lvl : Nat) : Nat :=
  if lvl = 2 then 2 else if lvl = 3 then 3 else 1

/-- Per-value codec selection in BuildWithOptions (qwick.go lines
253-314). In auto mode (Compression = 0) with SizeCutover > 0, values
longer than the cutover go to zstd and the rest to s2; the zstd encoder
created lazily on that path always uses SpeedFastest — the configured
ZstdLevel is consulted only when Compression = 1, where the encoder is
built up front (and, created either way, the encoder is reused for every
later value, so the choice is a pure function of the options and the
value). With Compression = 0 and SizeCutover = 0, and for any compression
code outside {1, 2}, the value is written unencoded. -/
def encodeChoice (opts : BuildOptions) (vb : List Nat) : CompChoice :=
  let compToUse :=
    if opts.compression = 0 ∧ 0 < opts.sizeCutover then
      if opts.sizeCutover < vb.length then 1 else 2
    else opts.compression
  if compToUse = 1 then
    .zstd (if opts.compression = 1 then zstdSpeedOf opts.zstdLevel else 1)
  else if compToUse = 2 then .s2
  else .raw

/-- Encoded bytes of one value (the `cv` computed per entry). -/
def encodeVal (C : Codecs) (opts : BuildOptions) (vb : List Nat) : List Nat :=
  match encodeChoice opts vb with
  | .raw => vb
  | .s2 => C.s2Enc vb
  | .zstd lvl => C.zstdEnc lvl vb

/-- In-memory index record (the local `idx` struct in BuildWithOptions). -/
structure IdxRec where
  koff : Nat
  klen : Nat
  voff : Nat
  vlen : Nat

/-- Blob-area serialization (the body of the second tree.ForEach):
starting at file offset `off`, write each key then its encoded value,
recording the four offsets of each entry. -/
def buildBlobs (C : Codecs) (opts : BuildOptions) :
    List (List Nat × List Nat) → Nat → List IdxRec × List Nat
  | [], _ => ([], [])
  | (k, v) :: rest, off =>
    let cv := encodeVal C opts v
    let r := buildBlobs C opts rest (off + k.length + cv.length)
    (⟨off, k.length, off + k.length, cv.length⟩ :: r.1, k ++ cv ++ r.2)

/-- Serialized 24-byte index entry (the PutUint64/PutUint32 writes into
`recBuf`). -/
def idxBytes (e : IdxRec) : List Nat :=
  leWrite 8 e.koff ++ leWrite 4 e.klen ++ leWrite 8 e.voff ++ leWrite 4 e.vlen

/-- Header bytes written at the end of BuildWithOptions (qwick.go lines
332-341). Only the first 8 bytes of the 9-byte FileMagic fit into
`hdrBuf[0:8]` (Go's `copy` truncates); bytes 12-16 and 48-64 stay zero. -/
def headerBytes (opts : BuildOptions) (num offBlobs : Nat) : List Nat :=
  fileMagic.take 8 ++ leWrite 4 1 ++ leWrite 4 0 ++ leWrite 8 num ++
    leWrite 8 headerSize ++ leWrite 8 offBlobs ++ leWrite 4 100 ++
    leWrite 4 opts.compression ++ List.replicate 16 0

/-- BuildWithOptions from qwick.go, modelled as the byte content of the
produced file. The Go code writes blobs first and then seeks back for the
index table and header; the resulting layout is
header ++ index ++ blobs, with the blob area at `64 + 24 * num`.
`entries` is the ART tree's leaf traversal: (key, value bytes) pairs in
the tree's in-order, the values already coerced by the
[]byte/string/fmt.Sprint switch at the top of the ForEach body.
File-system errors and the tmp-file rename are not modelled. -/
def buildFile (C : Codecs) (opts : BuildOptions)
    (entries : List (List Nat × List Nat)) : List Nat :=
  let num := entries.length
  let offBlobs := headerSize + num * indexEntrySize
  let r := buildBlobs C opts entries offBlobs
  headerBytes opts num offBlobs ++ (r.1.map idxBytes).flatten ++ r.2

/-- Stored key at index slot `i` (defaulting to `[]` where the real code
would panic; the hypotheses of the theorems below rule that case out). -/
def keyAt (db : MMAPDB) (i : Nat) : List Nat := (getKeySlice db i).getD []

/-- Stored value slice at index slot `i`. -/
def valAt (db : MMAPDB) (i : Nat) : List Nat := (getValSlice db i).getD []

/-- Every index entry of the database is in bounds: all key and value
slice reads succeed. -/
def inBounds (db : MMAPDB) : Prop :=
  ∀ i, i < db.num → (getKeySlice db i).isSome = true ∧ (getValSlice db i).isSome = true

/-- Index keys strictly ascending in byte order. -/
def sortedKeys (db : MMAPDB) : Prop :=
  ∀ j, j < db.num → ∀ i, i < j → bytesCompare (keyAt db i) (keyAt db j) = .lt

instance (db : MMAPDB) : Decidable (inBounds db) := by
  unfold inBounds; infer_instance

instance (db : MMAPDB) : Decidable (sortedKeys db) := by
  unfold sortedKeys; infer_instance

/-! Order-theoretic facts about `bytesCompare` and `hasPfx`, proved by
simultaneous induction on the byte lists. -/

theorem bc_eq_iff : ∀ a b : List Nat, bytesCompare a b = .eq ↔ a = b
  | [], [] => by simp [bytesCompare]
  | [], _ :: _ => by simp [bytesCompare]
  | _ :: _, [] => by simp [bytesCompare]
  | a :: as, b :: bs => by
    simp only [bytesCompare]
    by_cases h1 : a < b
    · simp [h1, Nat.ne_of_lt h1]
    · by_cases h2 : b < a
      · simp [h1, h2, (Nat.ne_of_lt h2).symm]
      · have hab : a = b := Nat.le_antisymm (Nat.not_lt.mp h2) (Nat.not_lt.mp h1)
        subst hab
        simp [h1, h2, bc_eq_iff as bs]

theorem bc_gt_iff : ∀ a b : List Nat, bytesCompare a b = .gt ↔ bytesCompare b a = .lt
  | [], [] => by simp [bytesCompare]
  | [], _ :: _ => by simp [bytesCompare]
  | _ :: _, [] => by simp [bytesCompare]
  | a :: as, b :: bs => by
    simp only [bytesCompare]
    by_cases h1 : a < b
    · simp [h1, Nat.lt_asymm h1]
    · by_cases h2 : b < a
      · simp [h1, h2]
      · simp [h1, h2, bc_gt_iff as bs]

theorem bc_lt_trans :
    ∀ a b c : List Nat, bytesCompare a b = .lt → bytesCompare b c = .lt →
      bytesCompare a c = .lt
  | [], [], _ => by intro h _; simp [bytesCompare] at h
  | [], _ :: _, [] => by intro _ h; simp [bytesCompare] at h
  | [], _ :: _, _ :: _ => by intro _ _; rfl
  | _ :: _, [], _ => by intro h _; simp [bytesCompare] at h
  | _ :: _, _ :: _, [] => by intro _ h; simp [bytesCompare] at h
  | a :: as, b :: bs, c :: cs => by
    intro h1 h2
    simp only [bytesCompare] at h1 h2 ⊢
    by_cases hab : a < b
    · by_cases hbc : b < c
      · simp [Nat.lt_trans hab hbc]
      · by_cases hcb : c < b
        · simp [hbc, hcb] at h2
        · have : b = c := Nat.le_antisymm (Nat.not_lt.mp hcb) (Nat.not_lt.mp hbc)
          subst this
          simp [hab]
    · by_cases hba : b < a
      · simp [hab, hba] at h1
      · have : a = b := Nat.le_antisymm (Nat.not_lt.mp hba) (Nat.not_lt.mp hab)
        subst this
        simp only [Nat.lt_irrefl, if_false] at h1
        by_cases hac : a < c
        · simp [hac]
        · by_cases hca : c < a
          · simp [hac, hca] at h2
          · have : a = c := Nat.le_antisymm (Nat.not_lt.mp hca) (Nat.not_lt.mp hac)
            subst this
            simp only [Nat.lt_irrefl, if_false] at h2 ⊢
            exact bc_lt_trans as bs cs h1 h2

/-- A sequence having `p` as a prefix never sorts strictly below `p`. -/
theorem hasPfx_not_lt :
    ∀ p k : List Nat, hasPfx p k = true → bytesCompare k p ≠ .lt
  | [], [] => by intro _; simp [bytesCompare]
  | [], _ :: _ => by intro _; simp [bytesCompare]
  | _ :: _, [] => by intro h; simp [hasPfx] at h
  | a :: as, b :: bs => by
    intro h
    simp only [hasPfx] at h
    by_cases hab : a = b
    · subst hab
      simp only [if_pos rfl] at h
      simp only [bytesCompare, Nat.lt_irrefl, if_false]
      exact hasPfx_not_lt as bs h
    · simp [hab] at h

/-- Keys with prefix `p` form an interval in the byte order: if
`p ≤ k ≤ m` and `p` is a prefix of `m`, it is a prefix of `k` too. -/
theorem hasPfx_between :
    ∀ p k m : List Nat, bytesCompare k p ≠ .lt → bytesCompare m k ≠ .lt →
      hasPfx p m = true → hasPfx p k = true
  | [], _, _ => by intro _ _ _; rfl
  | _ :: _, _, [] => by intro _ _ h; simp [hasPfx] at h
  | a :: as, [], _ :: _ => by
    intro h1 _ _
    simp [bytesCompare] at h1
  | a :: as, b :: bs, c :: cs => by
    intro h1 h2 h3
    simp only [hasPfx] at h3 ⊢
    by_cases hac : a = c
    · subst hac
      simp only [if_pos rfl] at h3
      simp only [bytesCompare] at h1 h2
      by_cases hba : b < a
      · simp [hba] at h1
      · by_cases hab : a < b
        · simp [hab, Nat.lt_asymm hab] at h2
        · have : a = b := Nat.le_antisymm (Nat.not_lt.mp hba) (Nat.not_lt.mp hab)
          subst this
          simp only [Nat.lt_irrefl, if_false] at h1 h2
          simp only [if_pos rfl]
          exact hasPfx_between as bs cs h1 h2 h3
    · simp [hac] at h3

/-! Correctness of the binary search over a strictly sorted, in-bounds
index: it returns (without panicking) the rank of the key, i.e. the index
below which all stored keys sort strictly before the key and from which on
none does. -/

theorem keyAt_eq (db : MMAPDB) {i : Nat} {k : List Nat}
    (h : getKeySlice db i = some k) : keyAt db i = k := by
  simp [keyAt, h]

theorem valAt_eq (db : MMAPDB) {i : Nat} {v : List Nat}
    (h : getValSlice db i = some v) : valAt db i = v := by
  simp [valAt, h]

theorem findIndexLoop_spec (db : MMAPDB) (key : List Nat)
    (hin : inBounds db) (hsort : sortedKeys db) :
    ∀ fuel lo hi, hi ≤ db.num → lo ≤ hi → hi - lo ≤ fuel →
    (∀ j, j < lo → bytesCompare (keyAt db j) key = .lt) →
    (∀ j, hi ≤ j → j < db.num → bytesCompare (keyAt db j) key = .gt) →
    ∃ idx fnd, findIndexLoop db key fuel lo hi = some (idx, fnd) ∧ idx ≤ db.num ∧
      (∀ j, j < idx → bytesCompare (keyAt db j) key = .lt) ∧
      (∀ j, idx ≤ j → j < db.num → bytesCompare (keyAt db j) key ≠ .lt) := by
  intro fuel
  induction fuel with
  | zero =>
    intro lo hi hhi hlo hfuel Hlo Hhi
    have : lo = hi := by omega
    subst this
    refine ⟨lo, false, rfl, by omega, Hlo, ?_⟩
    intro j hj1 hj2
    rw [Hhi j hj1 hj2]
    simp
  | succ fuel ih =>
    intro lo hi hhi hlo hfuel Hlo Hhi
    by_cases hlh : lo < hi
    · have hmid1 : lo ≤ (lo + hi) / 2 := by omega
      have hmid2 : (lo + hi) / 2 < hi := by omega
      have hmidn : (lo + hi) / 2 < db.num := by omega
      obtain ⟨hk, _⟩ := hin _ hmidn
      obtain ⟨k, hk⟩ := Option.isSome_iff_exists.mp hk
      have hkey : keyAt db ((lo + hi) / 2) = k := keyAt_eq db hk
      simp only [findIndexLoop, if_pos hlh, hk]
      rcases hcmp : bytesCompare k key with h | h | h
      · -- k < key: continue right of mid
        have Hlo' : ∀ j, j < (lo + hi) / 2 + 1 → bytesCompare (keyAt db j) key = .lt := by
          intro j hj
          rcases Nat.lt_or_ge j ((lo + hi) / 2) with hj' | hj'
          · exact bc_lt_trans _ _ _ (hsort _ hmidn j hj') (hkey ▸ hcmp)
          · have : j = (lo + hi) / 2 := by omega
            subst this
            rw [hkey]; exact hcmp
        exact ih ((lo + hi) / 2 + 1) hi hhi (by omega) (by omega) Hlo' Hhi
      · -- k = key: hit at mid
        have hkk : keyAt db ((lo + hi) / 2) = key := by
          rw [hkey]; exact bc_eq_iff _ _ |>.mp hcmp
        refine ⟨(lo + hi) / 2, true, rfl, by omega, ?_, ?_⟩
        · intro j hj
          have := hsort _ hmidn j hj
          rwa [hkk] at this
        · intro j hj1 hj2
          rcases Nat.lt_or_ge ((lo + hi) / 2) j with hj' | hj'
          · have := hsort j hj2 _ hj'
            rw [hkk] at this
            have hg := (bc_gt_iff (keyAt db j) key).mpr this
            simp [hg]
          · have : j = (lo + hi) / 2 := by omega
            subst this
            rw [hkk]
            have : bytesCompare key key = .eq := bc_eq_iff key key |>.mpr rfl
            simp [this]
      · -- k > key: continue left of mid
        have Hhi' : ∀ j, (lo + hi) / 2 ≤ j → j < db.num →
            bytesCompare (keyAt db j) key = .gt := by
          intro j hj1 hj2
          rcases Nat.lt_or_ge ((lo + hi) / 2) j with hj' | hj'
          · have hs := hsort j hj2 _ hj'
            rw [hkey] at hs
            rw [bc_gt_iff] at hcmp ⊢
            exact bc_lt_trans _ _ _ hcmp hs
          · have : j = (lo + hi) / 2 := by omega
            subst this
            rw [hkey]; exact hcmp
        exact ih lo ((lo + hi) / 2) (by omega) (by omega) (by omega) Hlo Hhi'
    · have : lo = hi := by omega
      subst this
      simp only [findIndexLoop, if_neg hlh]
      refine ⟨lo, false, rfl, by omega, Hlo, ?_⟩
      intro j hj1 hj2
      rw [Hhi j hj1 hj2]
      simp

theorem findIndex_spec (db : MMAPDB) (key : List Nat)
    (hin : inBounds db) (hsort : sortedKeys db) :
    ∃ idx fnd, findIndex db key = some (idx, fnd) ∧ idx ≤ db.num ∧
      (∀ j, j < idx → bytesCompare (keyAt db j) key = .lt) ∧
      (∀ j, idx ≤ j → j < db.num → bytesCompare (keyAt db j) key ≠ .lt) := by
  refine findIndexLoop_spec db key hin hsort db.num 0 db.num le_rfl (by omega) (by omega) ?_ ?_
  · intro j hj; omega
  · intro j hj1 hj2; omega

/-! Behaviour of the forward walk performed by Prefix. -/

theorem pfxLoop_spec (db : MMAPDB) (p : List Nat) (cb : List Nat → List Nat → Bool)
    (hin : inBounds db) (hsort : sortedKeys db) (hcb : ∀ a b, cb a b = true) :
    ∀ fuel i, i ≤ db.num → db.num - i ≤ fuel →
    (∀ j, i ≤ j → j < db.num → bytesCompare (keyAt db j) p ≠ .lt) →
    (pfxLoop db p cb fuel i).panicked = false ∧
    (pfxLoop db p cb fuel i).visits =
      ((List.range' i (db.num - i)).filter (fun j => hasPfx p (keyAt db j))).map
        (fun j => (keyAt db j, valAt db j)) := by
  intro fuel
  induction fuel with
  | zero =>
    intro i hi hfuel _
    have h0 : db.num - i = 0 := by omega
    simp [pfxLoop, h0]
  | succ fuel ih =>
    intro i hi hfuel H
    by_cases hlt : i < db.num
    · obtain ⟨hk, hv⟩ := hin i hlt
      obtain ⟨k, hk⟩ := Option.isSome_iff_exists.mp hk
      obtain ⟨v, hv⟩ := Option.isSome_iff_exists.mp hv
      have hkey : keyAt db i = k := keyAt_eq db hk
      have hval : valAt db i = v := valAt_eq db hv
      have hrange : db.num - i = (db.num - (i + 1)) + 1 := by omega
      have hsplit : List.range' i (db.num - i) = i :: List.range' (i + 1) (db.num - (i + 1)) := by
        rw [hrange]; simp [List.range']
      by_cases hpk : hasPfx p k = true
      · have hcbv : cb k v = true := hcb k v
        obtain ⟨hp1, hp2⟩ := ih (i + 1) (by omega) (by omega)
          (fun j hj1 hj2 => H j (by omega) hj2)
        have hred : pfxLoop db p cb (fuel + 1) i =
            ⟨(k, v) :: (pfxLoop db p cb fuel (i + 1)).visits,
             i :: (pfxLoop db p cb fuel (i + 1)).reads,
             (pfxLoop db p cb fuel (i + 1)).panicked⟩ := by
          simp [pfxLoop, hlt, hk, hpk, hv, hcbv]
        rw [hred]
        refine ⟨hp1, ?_⟩
        rw [hsplit, List.filter_cons, hp2]
        simp [hpk, hkey, hval]
      · have hred : pfxLoop db p cb (fuel + 1) i = ⟨[], [i], false⟩ := by
          simp [pfxLoop, hlt, hk, hpk]
        have hnil : (List.range' i (db.num - i)).filter
            (fun j => hasPfx p (keyAt db j)) = [] := by
          rw [List.filter_eq_nil_iff]
          intro j hj habs
          obtain ⟨hj1, hj2⟩ := List.mem_range'_1.mp hj
          have hj2' : j < db.num := by omega
          have h1 : bytesCompare (keyAt db i) p ≠ .lt := H i le_rfl hlt
          have h2 : bytesCompare (keyAt db j) (keyAt db i) ≠ .lt := by
            rcases Nat.lt_or_ge i j with hij | hij
            · have := hsort j hj2' i hij
              have hg := (bc_gt_iff (keyAt db j) (keyAt db i)).mpr this
              simp [hg]
            · have : j = i := by omega
              subst this
              have he : bytesCompare (keyAt db j) (keyAt db j) = .eq :=
                (bc_eq_iff _ _).mpr rfl
              simp [he]
          have := hasPfx_between p (keyAt db i) (keyAt db j) h1 h2 habs
          rw [hkey] at this
          exact hpk this
        rw [hred, hnil]
        exact ⟨rfl, rfl⟩
    · have h0 : db.num - i = 0 := by omega
      have hred : pfxLoop db p cb (fuel + 1) i = ⟨[], [], false⟩ := by
        simp [pfxLoop, hlt]
      rw [hred, h0]
      exact ⟨rfl, rfl⟩

theorem pfxLoop_early_stop (db : MMAPDB) (p : List Nat)
    (cb : List Nat → List Nat → Bool) :
    ∀ fuel i k e, (pfxLoop db p cb fuel i).visits[k]? = some e →
    cb e.1 e.2 = false →
    (pfxLoop db p cb fuel i).visits.length = k + 1 ∧
    (pfxLoop db p cb fuel i).reads = List.range' i (k + 1) ∧
    (pfxLoop db p cb fuel i).panicked = false := by
  intro fuel
  induction fuel with
  | zero =>
    intro i k e hv _
    simp [pfxLoop] at hv
  | succ fuel ih =>
    intro i k e hv hf
    by_cases hlt : i < db.num
    · cases hgk : getKeySlice db i with
      | none =>
        have hred : pfxLoop db p cb (fuel + 1) i = ⟨[], [i], true⟩ := by
          simp [pfxLoop, hlt, hgk]
        rw [hred] at hv
        simp at hv
      | some kk =>
        by_cases hpk : hasPfx p kk = true
        · cases hgv : getValSlice db i with
          | none =>
            have hred : pfxLoop db p cb (fuel + 1) i = ⟨[], [i], true⟩ := by
              simp [pfxLoop, hlt, hgk, hpk, hgv]
            rw [hred] at hv
            simp at hv
          | some v =>
            by_cases hcbv : cb kk v = true
            · have hred : pfxLoop db p cb (fuel + 1) i =
                  ⟨(kk, v) :: (pfxLoop db p cb fuel (i + 1)).visits,
                   i :: (pfxLoop db p cb fuel (i + 1)).reads,
                   (pfxLoop db p cb fuel (i + 1)).panicked⟩ := by
                simp [pfxLoop, hlt, hgk, hpk, hgv, hcbv]
              rw [hred] at hv ⊢
              cases k with
              | zero =>
                simp at hv
                subst hv
                simp only [] at hf
                rw [hcbv] at hf
                cases hf
              | succ k' =>
                simp only [List.getElem?_cons_succ] at hv
                obtain ⟨h1, h2, h3⟩ := ih (i + 1) k' e hv hf
                refine ⟨by simp [h1], ?_, h3⟩
                rw [h2]
                simp [List.range']
            · have hcbv' : cb kk v = false := by
                cases hb : cb kk v
                · rfl
                · exact absurd hb hcbv
              have hred : pfxLoop db p cb (fuel + 1) i = ⟨[(kk, v)], [i], false⟩ := by
                simp [pfxLoop, hlt, hgk, hpk, hgv, hcbv']
              rw [hred] at hv ⊢
              cases k with
              | zero =>
                refine ⟨rfl, ?_, rfl⟩
                simp [List.range']
              | succ k' => simp at hv
        · have hred : pfxLoop db p cb (fuel + 1) i = ⟨[], [i], false⟩ := by
            simp [pfxLoop, hlt, hgk, hpk]
          rw [hred] at hv
          simp at hv
    · have hred : pfxLoop db p cb (fuel + 1) i = ⟨[], [], false⟩ := by
        simp [pfxLoop, hlt]
      rw [hred] at hv
      simp at hv

/-! Concrete artifacts used by counterexamples, failing inputs and
witnesses. -/

/-- Demonstration reader state with two in-bounds, sorted entries:
key [97] ("a") with value [10] and key [98] ("b") with value [20], the
index table at offset 64 and the blob area at 112 — the layout §3 of the
format prescribes. Header compression code 0. -/
def demoMdata : List Nat :=
  List.replicate 64 0 ++
    (leWrite 8 112 ++ leWrite 4 1 ++ leWrite 8 113 ++ leWrite 4 1) ++
    (leWrite 8 114 ++ leWrite 4 1 ++ leWrite 8 115 ++ leWrite 4 1) ++
    [97, 10, 98, 20]

/-- Header record matching `demoMdata`. -/
def demoHdr : FileHeader := ⟨List.replicate 8 0, 1, 2, 64, 112, 100, 0⟩

/-- Reader over `demoMdata` with compression code 0 (auto). -/
def demoDB : MMAPDB := ⟨demoMdata, demoHdr, 64, 24, 2, 0⟩

/-- The demo reader with the unsupported compression code 99. -/
def demoDB99 : MMAPDB := ⟨demoMdata, ⟨List.replicate 8 0, 1, 2, 64, 112, 100, 99⟩, 64, 24, 2, 99⟩

/-- Codec instance whose decoders always fail, exercising the auto-mode
fall-through to the raw bytes. -/
def failCodecs : Codecs := ⟨fun v => v, fun _ => none, fun _ v => v, fun _ => none⟩

/-- File built by TestPanicReproduction (part_001): an 88-byte file whose
header declares one entry with the index at 64, and whose single index
entry carries key offset 10000000000, key length 10, value offset
10000000010, value length 10 — far outside the file. -/
def panicFile : List Nat :=
  fileMagic.take 8 ++ leWrite 4 1 ++ leWrite 4 0 ++ leWrite 8 1 ++
    leWrite 8 64 ++ leWrite 8 10000000000 ++ leWrite 4 0 ++ leWrite 4 0 ++
    List.replicate 16 0 ++
    (leWrite 8 10000000000 ++ leWrite 4 10 ++ leWrite 8 10000000010 ++ leWrite 4 10)

/-- Header written by TestCorruptedDB/InvalidCompression (part_001):
the magic bytes and version 1 as the test writes them, with compression
code 99 at offset 44. -/
def compr99File : List Nat :=
  fileMagic.take 8 ++ leWrite 4 1 ++ leWrite 4 0 ++ leWrite 8 0 ++
    leWrite 8 0 ++ leWrite 8 0 ++ leWrite 4 0 ++ leWrite 4 99 ++
    List.replicate 16 0

/-- Well-formed empty-database file except that its version field holds
999 (the file TestErrorsMore constructs by patching bytes 8-12). -/
def ver999File : List Nat :=
  fileMagic.take 8 ++ leWrite 4 999 ++ leWrite 4 0 ++ leWrite 8 0 ++
    leWrite 8 64 ++ leWrite 8 64 ++ leWrite 4 100 ++ leWrite 4 0 ++
    List.replicate 16 0

theorem leWrite_length (n x : Nat) : (leWrite n x).length = n := by
  simp [leWrite]

theorem headerBytes_length (opts : BuildOptions) (num offBlobs : Nat) :
    (headerBytes opts num offBlobs).length = 64 := by
  simp [headerBytes, leWrite_length, fileMagic]

theorem headerBytes_take8 (opts : BuildOptions) (num offBlobs : Nat) :
    (headerBytes opts num offBlobs).take 8 = fileMagic.take 8 := by
  unfold headerBytes
  rw [List.append_assoc, List.append_assoc, List.append_assoc, List.append_assoc,
    List.append_assoc, List.append_assoc, List.append_assoc,
    List.take_append_of_le_length (by simp [fileMagic])]
  simp [fileMagic]

/-! Claim theorems. -/

/-- Claim C1. The Build/Open round-trip asserted by the specification is
broken in the code: for every tree, every build options value and every
codec behaviour, Open run on the file BuildWithOptions produces returns
the bad-magic error (never a reader), because Build can store only the
first eight bytes of the nine-byte FileMagic constant while Open compares
those eight bytes against the full nine-byte constant. -/
theorem build_then_open_always_bad_magic (C : Codecs) (opts : BuildOptions)
    (entries : List (List Nat × List Nat)) :
    openDB (buildFile C opts entries) = .error .badMagic := by
  unfold buildFile
  have hlen : ¬ (headerBytes opts entries.length
      (headerSize + entries.length * indexEntrySize) ++
      ((buildBlobs C opts entries (headerSize + entries.length * indexEntrySize)).1.map
        idxBytes).flatten ++
      (buildBlobs C opts entries (headerSize + entries.length * indexEntrySize)).2).length <
      headerSize := by
    simp [List.length_append, headerBytes_length, headerSize]
  have htake : (headerBytes opts entries.length
      (headerSize + entries.length * indexEntrySize) ++
      ((buildBlobs C opts entries (headerSize + entries.length * indexEntrySize)).1.map
        idxBytes).flatten ++
      (buildBlobs C opts entries (headerSize + entries.length * indexEntrySize)).2).take 8 =
      fileMagic.take 8 := by
    rw [List.append_assoc,
      List.take_append_of_le_length (by simp [headerBytes_length]),
      headerBytes_take8]
  have hne : fileMagic.take 8 ≠ fileMagic := by decide
  simp only [openDB, if_neg hlen, htake, if_neg hne]

/-- Claim C2. The reader does not verify on-disk offsets before slicing:
on the 88-byte file the repository's own TestPanicReproduction builds
(one index entry pointing at offset 10000000000), GetRaw for the key
"test" hits the out-of-range slice — modelled as `none`, Go's runtime
panic — instead of reporting any CorruptData error; GetRaw's return type
has no error channel at all. -/
theorem getRaw_panics_on_out_of_range_entry :
    readIndex (parseDB panicFile) 0 = some (10000000000, 10, 10000000010, 10) ∧
    panicFile.length = 88 ∧
    getRaw (parseDB panicFile) [116, 101, 115, 116] = none := by decide

/-- Claim C3, counterexample. A file whose version field reads 999 (all
other header fields well-formed) is not rejected with an
unsupported-version error: Open returns the bad-magic error, exactly as
it does for every other file, because it never examines the version
field. -/
theorem open_version_999_not_unsupported_version :
    leRead ver999File 8 4 = 999 ∧
    openDB ver999File ≠ .error .unsupportedVersion ∧
    openDB ver999File = .error .badMagic := by decide

/-- Claim C3, amended. Open performs no version check at all; in the
current code it rejects every byte sequence — with the too-short error
below 64 bytes and with the bad-magic error otherwise — so no file,
whatever its version, ever yields a reader or an unsupported-version
error. -/
theorem open_rejects_every_file_no_version_check (m : List Nat) :
    openDB m = .error .tooShort ∨ openDB m = .error .badMagic := by
  unfold openDB
  by_cases h : m.length < headerSize
  · left; simp [h]
  · right
    have hne : m.take 8 ≠ fileMagic := by
      intro heq
      have hl := congrArg List.length heq
      simp [fileMagic, List.length_take] at hl
      omega
    simp [h, hne]

/-- Claim C4. Open performs no compression-code validation: on the
64-byte header the repository's own TestCorruptedDB/InvalidCompression
writes (compression field 99), Open returns the bad-magic error rather
than the unsupported-compression error the test demands, and had the
magic matched it would have returned a reader without any compression
check. -/
theorem open_compression_99_not_validated :
    leRead compr99File 44 4 = 99 ∧
    openDB compr99File = .error .badMagic ∧
    openDB compr99File ≠ .error .unsupportedCompression := by decide

/-- Claim C5. On a reader whose compression code is 0 and for any present
key (GetRaw returns its stored bytes `v`), Find first attempts the s2
decode of `v`, on s2 failure attempts the zstd decode, and when both fail
returns `v` unchanged; in every case the found flag is true and the
error component is `none`. -/
theorem find_auto_decode_fallback (C : Codecs) (db : MMAPDB) (key dst v : List Nat)
    (hc : db.compression = 0) (hg : getRaw db key = some (some v)) :
    find C db key dst = some ((match C.s2Dec v with
      | some o => o
      | none => match C.zstdDec v with
        | some o => o
        | none => v), true, none) := by
  cases hs : C.s2Dec v <;> cases hz : C.zstdDec v <;>
    simp [find, hg, hc, hs, hz]

/-- Witness for claim C5 at the two-entry demo reader and the
always-failing codecs: both decoders fail, so Find returns the stored
byte [10] unchanged with found true and no error. -/
theorem find_auto_decode_fallback_witness :
    demoDB.compression = 0 ∧ getRaw demoDB [97] = some (some [10]) ∧
    find failCodecs demoDB [97] [] = some ((match failCodecs.s2Dec [10] with
      | some o => o
      | none => match failCodecs.zstdDec [10] with
        | some o => o
        | none => [10]), true, none) :=
  ⟨rfl, by decide, find_auto_decode_fallback failCodecs demoDB [97] [] [10] rfl (by decide)⟩

/-- Claim C6, counterexample. In auto mode the configured ZstdLevel is
ignored: with options (compression 0, zstdLevel 3, sizeCutover 1) a
two-byte value exceeds the cutover and is zstd-encoded, but at speed
level 1 (SpeedFastest), not at the configured level 3
(SpeedBetterCompression). -/
theorem auto_mode_ignores_configured_zstd_level :
    encodeChoice ⟨0, 3, 1⟩ [0, 0] = CompChoice.zstd 1 ∧
    zstdSpeedOf (3 : Nat) = 3 ∧
    encodeChoice ⟨0, 3, 1⟩ [0, 0] ≠ CompChoice.zstd 3 := by decide

/-- Claim C6, amended. For builds with compression 0 and a positive
cutover, a value of length at most the cutover is s2-encoded and a longer
value is zstd-encoded — always at speed level 1 (SpeedFastest),
regardless of the configured ZstdLevel. -/
theorem auto_mode_selection_fastest_zstd (opts : BuildOptions) (vb : List Nat)
    (h0 : opts.compression = 0) (hc : 0 < opts.sizeCutover) :
    encodeChoice opts vb =
      if vb.length ≤ opts.sizeCutover then CompChoice.s2 else CompChoice.zstd 1 := by
  by_cases hvb : opts.sizeCutover < vb.length
  · have hn : ¬ vb.length ≤ opts.sizeCutover := by omega
    simp [encodeChoice, h0, hc, hvb, hn]
  · have hy : vb.length ≤ opts.sizeCutover := by omega
    simp [encodeChoice, h0, hc, hvb, hy]

/-- Witness for the amended claim C6: with cutover 5, the six-byte value
goes to zstd at SpeedFastest. -/
theorem auto_mode_selection_fastest_zstd_witness :
    ((⟨0, 3, 5⟩ : BuildOptions).compression = 0 ∧
      0 < (⟨0, 3, 5⟩ : BuildOptions).sizeCutover) ∧
    encodeChoice ⟨0, 3, 5⟩ [1, 2, 3, 4, 5, 6] =
      (if ([1, 2, 3, 4, 5, 6] : List Nat).length ≤ (⟨0, 3, 5⟩ : BuildOptions).sizeCutover
        then CompChoice.s2 else CompChoice.zstd 1) :=
  ⟨⟨rfl, by decide⟩,
    auto_mode_selection_fastest_zstd ⟨0, 3, 5⟩ [1, 2, 3, 4, 5, 6] rfl (by decide)⟩

/-- Claim C7, counterexample. With compression 0 and sizeCutover 0 a
value is stored unencoded (raw), not s2-encoded as the specification
states. -/
theorem cutover_zero_yields_raw_not_s2 :
    encodeChoice ⟨0, 1, 0⟩ [97] = CompChoice.raw ∧
    encodeChoice ⟨0, 1, 0⟩ [97] ≠ CompChoice.s2 := by decide

/-- Claim C7, amended. With compression 0, a cutover of 0 disables auto
selection and every value is written with no codec applied at all. -/
theorem cutover_zero_stores_unencoded (opts : BuildOptions) (vb : List Nat)
    (h0 : opts.compression = 0) (hc : opts.sizeCutover = 0) :
    encodeChoice opts vb = CompChoice.raw := by
  simp [encodeChoice, h0, hc]

/-- Witness for the amended claim C7. -/
theorem cutover_zero_stores_unencoded_witness :
    ((⟨0, 1, 0⟩ : BuildOptions).compression = 0 ∧
      (⟨0, 1, 0⟩ : BuildOptions).sizeCutover = 0) ∧
    encodeChoice ⟨0, 1, 0⟩ [5, 6, 7] = CompChoice.raw :=
  ⟨⟨rfl, rfl⟩, cutover_zero_stores_unencoded ⟨0, 1, 0⟩ [5, 6, 7] rfl rfl⟩

/-- Claim C10. On a reader whose compression code is outside {0, 1, 2},
Find returns the stored bytes of a present key unchanged with found true
and no error, for every codec behaviour — no decode is attempted. -/
theorem find_unknown_compression_passthrough (C : Codecs) (db : MMAPDB)
    (key dst v : List Nat) (h0 : db.compression ≠ 0) (h1 : db.compression ≠ 1)
    (h2 : db.compression ≠ 2) (hg : getRaw db key = some (some v)) :
    find C db key dst = some (v, true, none) := by
  simp [find, hg, h0, h1, h2]

/-- Witness for claim C10 at the demo reader with compression code 99. -/
theorem find_unknown_compression_passthrough_witness :
    (demoDB99.compression ≠ 0 ∧ demoDB99.compression ≠ 1 ∧ demoDB99.compression ≠ 2 ∧
      getRaw demoDB99 [97] = some (some [10])) ∧
    find failCodecs demoDB99 [97] [] = some ([10], true, none) :=
  ⟨⟨by decide, by decide, by decide, by decide⟩,
    find_unknown_compression_passthrough failCodecs demoDB99 [97] [] [10]
      (by decide) (by decide) (by decide) (by decide)⟩

/-- Claim C8. On a reader whose index entries are in bounds and strictly
ascending by key bytes, and with a callback that keeps returning true,
the Prefix walk does not panic, visits exactly the stored entries whose
key has `p` as a prefix — each exactly once, with the stored key and
value slices, in index order — and the visited keys are strictly
ascending in byte order. -/
theorem pfx_scan_visits_exactly_matching_keys (db : MMAPDB) (p : List Nat)
    (cb : List Nat → List Nat → Bool) (hin : inBounds db) (hsort : sortedKeys db)
    (hcb : ∀ a b, cb a b = true) :
    (pfxScan db p cb).panicked = false ∧
    (pfxScan db p cb).visits =
      ((List.range db.num).filter (fun i => hasPfx p (keyAt db i))).map
        (fun i => (keyAt db i, valAt db i)) ∧
    ((pfxScan db p cb).visits.map Prod.fst).Pairwise
      (fun a b => bytesCompare a b = .lt) := by
  obtain ⟨idx, fnd, hfi, hidx, hlt, hge⟩ := findIndex_spec db p hin hsort
  have hscan : pfxScan db p cb = pfxLoop db p cb (db.num - idx) idx := by
    simp [pfxScan, hfi]
  obtain ⟨hp1, hp2⟩ :=
    pfxLoop_spec db p cb hin hsort hcb (db.num - idx) idx hidx le_rfl hge
  have hsplit : List.range db.num =
      List.range' 0 idx ++ List.range' idx (db.num - idx) := by
    have h1 : db.num = (db.num - idx) + idx := by omega
    calc List.range db.num = List.range' 0 db.num := List.range_eq_range' _
      _ = List.range' 0 ((db.num - idx) + idx) := by rw [← h1]
      _ = List.range' 0 idx ++ List.range' (0 + 1 * idx) (db.num - idx) :=
        (List.range'_append 0 idx (db.num - idx) 1).symm
      _ = List.range' 0 idx ++ List.range' idx (db.num - idx) := by
        simp
  have hnil : (List.range' 0 idx).filter (fun i => hasPfx p (keyAt db i)) = [] := by
    rw [List.filter_eq_nil_iff]
    intro j hj habs
    obtain ⟨_, hj2⟩ := List.mem_range'_1.mp hj
    exact hasPfx_not_lt p (keyAt db j) habs (hlt j (by omega))
  refine ⟨by rw [hscan]; exact hp1, ?_, ?_⟩
  · rw [hscan, hp2, hsplit, List.filter_append, hnil]
    simp
  · rw [hscan, hp2, List.map_map, List.pairwise_map]
    have hbound : ((List.range' idx (db.num - idx)).filter
        (fun i => hasPfx p (keyAt db i))).Pairwise (fun a b => a < b ∧ b < db.num) := by
      apply List.Pairwise.filter
      apply List.Pairwise.imp_of_mem (l := List.range' idx (db.num - idx))
        (R := fun a b => a < b)
      · intro a b _ hbm hab
        obtain ⟨_, hb2⟩ := List.mem_range'_1.mp hbm
        exact ⟨hab, by omega⟩
      · exact List.pairwise_lt_range' idx (db.num - idx)
    exact hbound.imp (fun hab => hsort _ hab.2 _ hab.1)

/-- Witness for claim C8 at the two-entry demo reader with the
single-byte prefix [97]: only the first entry matches. -/
theorem pfx_scan_visits_exactly_matching_keys_witness :
    (inBounds demoDB ∧ sortedKeys demoDB) ∧
    ((pfxScan demoDB [97] (fun _ _ => true)).panicked = false ∧
      (pfxScan demoDB [97] (fun _ _ => true)).visits =
        ((List.range demoDB.num).filter (fun i => hasPfx [97] (keyAt demoDB i))).map
          (fun i => (keyAt demoDB i, valAt demoDB i)) ∧
      ((pfxScan demoDB [97] (fun _ _ => true)).visits.map Prod.fst).Pairwise
        (fun a b => bytesCompare a b = .lt)) :=
  ⟨⟨by decide, by decide⟩,
    pfx_scan_visits_exactly_matching_keys demoDB [97] (fun _ _ => true)
      (by decide) (by decide) (fun a b => rfl)⟩

/-- Claim C9. If the callback returns false on the entry visited at
position `k` (0-based), the Prefix walk stops at once: exactly `k + 1`
entries were visited, the loop read exactly the index slots from the
binary-search lower bound through the `k`-th visited one, and no panic
occurred. The binary search locating the lower bound runs before the
first visit and is outside this statement. -/
theorem pfx_scan_early_stop (db : MMAPDB) (p : List Nat)
    (cb : List Nat → List Nat → Bool) (k : Nat) (e : List Nat × List Nat)
    (hv : (pfxScan db p cb).visits[k]? = some e) (hf : cb e.1 e.2 = false) :
    (pfxScan db p cb).visits.length = k + 1 ∧
    (pfxScan db p cb).reads = List.range' (pfxStart db p) (k + 1) ∧
    (pfxScan db p cb).panicked = false := by
  cases hfi : findIndex db p with
  | none =>
    rw [pfxScan, hfi] at hv
    simp at hv
  | some pr =>
    obtain ⟨idx, fnd⟩ := pr
    have hscan : pfxScan db p cb = pfxLoop db p cb (db.num - idx) idx := by
      simp [pfxScan, hfi]
    have hstart : pfxStart db p = idx := by simp [pfxStart, hfi]
    rw [hscan] at hv ⊢
    rw [hstart]
    exact pfxLoop_early_stop db p cb (db.num - idx) idx k e hv hf

set_option maxRecDepth 8000 in
/-- Witness for claim C9 at the demo reader with the empty prefix and a
callback that refuses immediately: one visit, one slot read, no panic. -/
theorem pfx_scan_early_stop_witness :
    ((pfxScan demoDB [] (fun _ _ => false)).visits[0]? = some ([97], [10]) ∧
      (fun _ _ => (false : Bool)) ([97] : List Nat) ([10] : List Nat) = false) ∧
    ((pfxScan demoDB [] (fun _ _ => false)).visits.length = 0 + 1 ∧
      (pfxScan demoDB [] (fun _ _ => false)).reads =
        List.range' (pfxStart demoDB []) (0 + 1) ∧
      (pfxScan demoDB [] (fun _ _ => false)).panicked = false) :=
  ⟨⟨by decide, rfl⟩,
    pfx_scan_early_stop demoDB [] (fun _ _ => false) 0 ([97], [10]) (by decide) rfl⟩

end Qwick
